import Mathlib

/-!
Verification of the libversion comparator (`src/libversion/compare.c`)
against its natural-language specification.

Version strings are NUL-terminated byte strings; we model them as
`List Nat` of byte values, where the end of the list plays the role of
the terminating NUL (every byte-level test in the source excludes the
byte 0, and an embedded 0 byte stops every scanning loop exactly like
the end of the list does here).
-/

/-- Modelled from the spec: the public header `libversion/version.h`
(not part of `src/`) defines the flag bits `VERSIONFLAG_P_IS_PATCH`,
`VERSIONFLAG_ANY_IS_PATCH`, `VERSIONFLAG_LOWER_BOUND`,
`VERSIONFLAG_UPPER_BOUND`.  The comparator only ever tests these four
bits of a per-side flag word, so a flag word is modelled as a record of
the four bits. -/
structure VersionFlags where
  p_is_patch : Bool
  any_is_patch : Bool
  lower_bound : Bool
  upper_bound : Bool
deriving DecidableEq

/-- The all-clear flag word (`flags = 0` in C). -/
def flags0 : VersionFlags := ⟨false, false, false, false⟩

/-- `VERSION_COMPONENT_MAX` (`INT64_MAX`). -/
def VERSION_COMPONENT_MAX : Int := 9223372036854775807

/-- The `unit_t` triple of component scalars. -/
structure Unit_t where
  a : Int
  b : Int
  c : Int
deriving DecidableEq

/-- `compare_units`: strict lexicographic comparison of two units. -/
def compare_units (u1 u2 : Unit_t) : Int :=
  if u1.a < u2.a then -1
  else if u1.a > u2.a then 1
  else if u1.b < u2.b then -1
  else if u1.b > u2.b then 1
  else if u1.c < u2.c then -1
  else if u1.c > u2.c then 1
  else 0

/-- `is_version_char`: ASCII alphanumeric bytes. -/
def is_version_char (c : Nat) : Bool :=
  (decide (48 ≤ c) && decide (c ≤ 57)) ||
  (decide (97 ≤ c) && decide (c ≤ 122)) ||
  (decide (65 ≤ c) && decide (c ≤ 90))

/-- ASCII decimal digit test (`*cur >= '0' && *cur <= '9'`). -/
def isDigitB (c : Nat) : Bool := decide (48 ≤ c) && decide (c ≤ 57)

/-- ASCII letter test (`(*cur >= 'a' && *cur <= 'z') || (*cur >= 'A' && *cur <= 'Z')`). -/
def isAlphaB (c : Nat) : Bool :=
  (decide (97 ≤ c) && decide (c ≤ 122)) || (decide (65 ≤ c) && decide (c ≤ 90))

/-- The digit-consuming loop of `parse_number`, carrying the
accumulated component value. -/
def pnum_loop : List Nat → Int → Int × List Nat
  | [], component => (component, [])
  | c :: rest, component =>
    if isDigitB c then
      pnum_loop rest
        (if component ≤ (VERSION_COMPONENT_MAX - ((c : Int) - 48)) / 10 then
          component * 10 + ((c : Int) - 48)
        else VERSION_COMPONENT_MAX)
    else (component, c :: rest)

/-- `parse_number`: consume the longest digit prefix, returning the
(clamped) value and the rest of the string; `-1` and an unchanged
cursor on an empty digit run. -/
def parse_number (v : List Nat) : Int × List Nat :=
  if isDigitB (v.headD 0) then pnum_loop v 0 else (-1, v)

def ALPHAFLAG_PRERELEASE : Nat := 1
def ALPHAFLAG_POSTRELEASE : Nat := 2

/-- ASCII-only lowercase folding of a byte. -/
def tolower (c : Nat) : Nat := if 65 ≤ c ∧ c ≤ 90 then c - 65 + 97 else c

/-- `mymemcasecmp`: compare `len` bytes with ASCII case folding. -/
def mymemcasecmp : List Nat → List Nat → Nat → Int
  | _, _, 0 => 0
  | a1 :: as1, b1 :: bs1, len + 1 =>
    if tolower a1 = tolower b1 then mymemcasecmp as1 bs1 len
    else (tolower a1 : Int) - (tolower b1 : Int)
  | [], _, _ + 1 => 0
  | _ :: _, [], _ + 1 => 0

/-- The word `"alpha"` as bytes. -/
def wALPHA : List Nat := [97, 108, 112, 104, 97]
/-- The word `"beta"` as bytes. -/
def wBETA : List Nat := [98, 101, 116, 97]
/-- The word `"rc"` as bytes. -/
def wRC : List Nat := [114, 99]
/-- The word `"pre"` as bytes. -/
def wPRE : List Nat := [112, 114, 101]
/-- The word `"post"` as bytes. -/
def wPOST : List Nat := [112, 111, 115, 116]
/-- The word `"patch"` as bytes. -/
def wPATCH : List Nat := [112, 97, 116, 99, 104]
/-- The word `"pl"` as bytes. -/
def wPL : List Nat := [112, 108]
/-- The word `"errata"` as bytes. -/
def wERRATA : List Nat := [101, 114, 114, 97, 116, 97]

/-- `parse_alpha`: consume the longest ASCII letter prefix, classify
it (returned as the middle component: the `*outflags` out-parameter),
and return the first letter folded to lowercase, or `-1` on an empty
run. -/
def parse_alpha (v : List Nat) (flags : VersionFlags) : Int × Nat × List Nat :=
  let start := v.headD 0
  let run := v.takeWhile isAlphaB
  let cur := v.dropWhile isAlphaB
  let n := run.length
  if n = 0 then (-1, 0, v)
  else
    let outflags : Nat :=
      if n = 5 ∧ mymemcasecmp run wALPHA 5 = 0 then ALPHAFLAG_PRERELEASE
      else if n = 4 ∧ mymemcasecmp run wBETA 4 = 0 then ALPHAFLAG_PRERELEASE
      else if n = 2 ∧ mymemcasecmp run wRC 2 = 0 then ALPHAFLAG_PRERELEASE
      else if 3 ≤ n ∧ mymemcasecmp run wPRE 3 = 0 then ALPHAFLAG_PRERELEASE
      else if 4 ≤ n ∧ mymemcasecmp run wPOST 4 = 0 then ALPHAFLAG_POSTRELEASE
      else if n = 5 ∧ mymemcasecmp run wPATCH 5 = 0 then ALPHAFLAG_POSTRELEASE
      else if n = 2 ∧ mymemcasecmp run wPL 2 = 0 then ALPHAFLAG_POSTRELEASE
      else if n = 6 ∧ mymemcasecmp run wERRATA 2 = 0 then ALPHAFLAG_POSTRELEASE
      else if flags.p_is_patch ∧ n = 1 ∧ (start = 112 ∨ start = 80) then
        ALPHAFLAG_POSTRELEASE
      else 0
    (((tolower start : Nat) : Int), outflags, cur)

/-- The filler unit generated at end of string, per bound flags. -/
def fillerUnit (flags : VersionFlags) : Unit_t :=
  if flags.lower_bound then ⟨-2, -2, -2⟩
  else if flags.upper_bound then
    ⟨VERSION_COMPONENT_MAX, VERSION_COMPONENT_MAX, VERSION_COMPONENT_MAX⟩
  else ⟨0, -1, -1⟩

/-- Separator test: a byte the component extractor skips before a
component (`**str != '\0' && !is_version_char(**str)`). -/
def isSeparator (c : Nat) : Bool := decide (c ≠ 0) && !is_version_char c

/-- `get_next_version_component`: skip separators, then either emit
the end-of-string filler unit or parse number/alpha/number and emit
one or two units; returns the emitted units together with the advanced
cursor. -/
def get_next_version_component (v : List Nat) (flags : VersionFlags) :
    List Unit_t × List Nat :=
  let v' := v.dropWhile isSeparator
  if v'.headD 0 = 0 then ([fillerUnit flags], v')
  else
    let pn := parse_number v'
    let number := pn.1
    let pa := parse_alpha pn.2 flags
    let alpha := pa.1
    let pe := parse_number pa.2.2
    let extranumber := pe.1
    let rest := pe.2.dropWhile is_version_char
    let alphaflags : Nat :=
      if flags.any_is_patch then ALPHAFLAG_POSTRELEASE else pa.2.1
    if number ≠ -1 ∧ extranumber ≠ -1 then
      ([⟨number, -1, -1⟩,
        ⟨if alphaflags = ALPHAFLAG_POSTRELEASE then 0 else -1, alpha, extranumber⟩],
       rest)
    else if number ≠ -1 ∧ alpha ≠ -1 ∧ alphaflags ≠ 0 then
      ([⟨number, -1, -1⟩,
        ⟨if alphaflags = ALPHAFLAG_POSTRELEASE then 0 else -1, alpha, -1⟩],
       rest)
    else
      ([⟨if number = -1 ∧ alphaflags = ALPHAFLAG_POSTRELEASE then 0 else number,
         alpha, extranumber⟩],
       rest)

/-- Refill one side's unit buffer when it is empty (`if (v1_len == 0)
v1_len = get_next_version_component(&v1, v1_units, v1_flags)`). -/
def refill (flags : VersionFlags) (u : List Unit_t) (v : List Nat) :
    List Unit_t × List Nat :=
  if u = [] then get_next_version_component v flags else (u, v)

/-- Compare the first `n` units of the two buffers pairwise, returning
the first nonzero unit comparison (the inner `for` loop of
`version_compare4`). -/
def compare_run : List Unit_t → List Unit_t → Nat → Int
  | a1 :: as1, b1 :: bs1, n + 1 =>
    if compare_units a1 b1 = 0 then compare_run as1 bs1 n else compare_units a1 b1
  | _, _, _ => 0

/-- One-per-side residual "extra component" counter initialisation:
`(flags & (LOWER_BOUND|UPPER_BOUND)) ? 1 : 0`. -/
def init_extra (flags : VersionFlags) : Nat :=
  if flags.lower_bound || flags.upper_bound then 1 else 0

/-- The comparator loop of `version_compare4`, indexed by fuel.  State:
cursors `v1 v2`, pending unit buffers `u1 u2`, residual extra-component
counters `e1 e2`.  Returns `none` only on fuel exhaustion; the theorem
`vc_fuel_isSome` below shows linear fuel always suffices. -/
def vc_fuel (f1 f2 : VersionFlags) :
    Nat → List Nat → List Nat → List Unit_t → List Unit_t → Nat → Nat → Option Int
  | 0, _, _, _, _, _, _ => none
  | fuel + 1, v1, v2, u1, u2, e1, e2 =>
    let p1 := refill f1 u1 v1
    let p2 := refill f2 u2 v2
    let shift := min p1.1.length p2.1.length
    let r := compare_run p1.1 p2.1 shift
    if r ≠ 0 then some r
    else
      let w1 := p1.1.drop shift
      let w2 := p2.1.drop shift
      let x1 := decide (p1.2.headD 0 = 0) && w1.isEmpty
      let x2 := decide (p2.2.headD 0 = 0) && w2.isEmpty
      let b1 := x1 && decide (0 < e1)
      let b2 := x2 && decide (0 < e2)
      if (x1 && !b1) && (x2 && !b2) then some 0
      else
        vc_fuel f1 f2 fuel p1.2 p2.2 w1 w2
          (if b1 then e1 - 1 else e1) (if b2 then e2 - 1 else e2)

/-- Fuel budget linear in the combined input length; always sufficient
(theorem `vc_fuel_isSome`). -/
def fuelFor (v1 v2 : List Nat) : Nat := 3 * (v1.length + v2.length) + 5

/-- `version_compare4`: the general four-argument entry point. -/
def version_compare4 (v1 v2 : List Nat) (f1 f2 : VersionFlags) : Int :=
  (vc_fuel f1 f2 (fuelFor v1 v2) v1 v2 [] [] (init_extra f1) (init_extra f2)).getD 0

/-- `version_compare2`: plain comparison with no flags. -/
def version_compare2 (v1 v2 : List Nat) : Int :=
  version_compare4 v1 v2 flags0 flags0

/-- Concrete scenarios 1, 2 and 5 of the spec: "1.0" = "1.0",
"1.0" < "1.1", "1.0" = "1.0.0". -/
theorem scenario_equal_and_order :
    version_compare2 [49, 46, 48] [49, 46, 48] = 0 ∧
    version_compare2 [49, 46, 48] [49, 46, 49] = -1 ∧
    version_compare2 [49, 46, 48] [49, 46, 48, 46, 48] = 0 := by
  decide

/-- Concrete scenarios 4, 6 and 10 of the spec: "1.0patch1" > "1.0",
"1.0a" < "1.0b", "1.0rc1" > "1.0beta2". -/
theorem scenario_post_neutral_letters :
    version_compare2 [49, 46, 48, 112, 97, 116, 99, 104, 49] [49, 46, 48] = 1 ∧
    version_compare2 [49, 46, 48, 97] [49, 46, 48, 98] = -1 ∧
    version_compare2 [49, 46, 48, 114, 99, 49] [49, 46, 48, 98, 101, 116, 97, 50] = 1 := by
  decide

/-- Default unit used with `List.getD`. -/
def dUnit : Unit_t := ⟨0, 0, 0⟩

theorem compare_units_self (u : Unit_t) : compare_units u u = 0 := by
  simp [compare_units]

theorem compare_units_eq_of_zero {u v : Unit_t} (h : compare_units u v = 0) :
    u = v := by
  cases u; cases v
  simp only [compare_units] at h
  split_ifs at h <;> simp_all [Unit_t.mk.injEq]
  omega

theorem compare_units_neg (u v : Unit_t) :
    compare_units u v = - compare_units v u := by
  cases u; cases v
  simp only [compare_units]
  split_ifs <;> omega

theorem compare_units_range (u v : Unit_t) :
    compare_units u v = -1 ∨ compare_units u v = 0 ∨ compare_units u v = 1 := by
  simp only [compare_units]
  split_ifs <;> simp

theorem compare_units_lt_iff (u v : Unit_t) :
    compare_units u v = -1 ↔
      (u.a < v.a ∨ (u.a = v.a ∧ (u.b < v.b ∨ (u.b = v.b ∧ u.c < v.c)))) := by
  simp only [compare_units]
  split_ifs <;> norm_num <;> omega

theorem compare_units_trans_neg {u v w : Unit_t}
    (h1 : compare_units u v = -1) (h2 : compare_units v w = -1) :
    compare_units u w = -1 := by
  rw [compare_units_lt_iff] at h1 h2 ⊢
  rcases h1 with h1 | ⟨h1a, h1 | ⟨h1b, h1⟩⟩ <;>
    rcases h2 with h2 | ⟨h2a, h2 | ⟨h2b, h2⟩⟩ <;> omega

theorem compare_run_self (a : List Unit_t) (n : Nat) : compare_run a a n = 0 := by
  induction a generalizing n with
  | nil => cases n <;> simp [compare_run]
  | cons x xs ih =>
    cases n with
    | zero => simp [compare_run]
    | succ m => simp [compare_run, compare_units_self, ih]

theorem compare_run_neg (n : Nat) : ∀ (a b : List Unit_t),
    compare_run a b n = - compare_run b a n := by
  induction n with
  | zero => intro a b; cases a <;> cases b <;> simp [compare_run]
  | succ m ih =>
    intro a b
    cases a with
    | nil => cases b <;> simp [compare_run]
    | cons x xs =>
      cases b with
      | nil => simp [compare_run]
      | cons y ys =>
        simp only [compare_run]
        have h := compare_units_neg x y
        by_cases h0 : compare_units x y = 0
        · have h0' : compare_units y x = 0 := by omega
          rw [if_pos h0, if_pos h0', ih]
        · have h0' : ¬ compare_units y x = 0 := by omega
          rw [if_neg h0, if_neg h0']; omega

theorem compare_run_range (n : Nat) : ∀ (a b : List Unit_t),
    compare_run a b n = -1 ∨ compare_run a b n = 0 ∨ compare_run a b n = 1 := by
  induction n with
  | zero => intro a b; cases a <;> cases b <;> simp [compare_run]
  | succ m ih =>
    intro a b
    cases a with
    | nil => cases b <;> simp [compare_run]
    | cons x xs =>
      cases b with
      | nil => simp [compare_run]
      | cons y ys =>
        simp only [compare_run]
        by_cases h0 : compare_units x y = 0
        · simp [h0, ih]
        · simpa [h0] using compare_units_range x y

theorem compare_run_eq_of_zero (n : Nat) : ∀ (a b : List Unit_t),
    compare_run a b n = 0 → ∀ i, i < n →
      i < a.length → i < b.length → a.getD i dUnit = b.getD i dUnit := by
  induction n with
  | zero => intro a b _ i hi; omega
  | succ m ih =>
    intro a b h i hi ha hb
    cases a with
    | nil => simp at ha
    | cons x xs =>
      cases b with
      | nil => simp at hb
      | cons y ys =>
        simp only [compare_run] at h
        by_cases h0 : compare_units x y = 0
        · rw [if_pos h0] at h
          cases i with
          | zero => simpa using compare_units_eq_of_zero h0
          | succ j =>
            simp only [List.getD_cons_succ]
            exact ih xs ys h j (by omega) (by simpa using ha) (by simpa using hb)
        · rw [if_neg h0] at h
          exact absurd h h0

theorem compare_run_diff (n : Nat) : ∀ (a b : List Unit_t) (r : Int),
    compare_run a b n = r → r ≠ 0 →
    ∃ i, i < n ∧ (∀ j, j < i → a.getD j dUnit = b.getD j dUnit) ∧
      compare_units (a.getD i dUnit) (b.getD i dUnit) = r := by
  induction n with
  | zero =>
    intro a b r h hr
    cases a <;> cases b <;> simp [compare_run] at h <;> omega
  | succ m ih =>
    intro a b r h hr
    cases a with
    | nil => simp [compare_run] at h; omega
    | cons x xs =>
      cases b with
      | nil => simp [compare_run] at h; omega
      | cons y ys =>
        simp only [compare_run] at h
        by_cases h0 : compare_units x y = 0
        · rw [if_pos h0] at h
          obtain ⟨i, hi, hagree, hcmp⟩ := ih xs ys r h hr
          refine ⟨i + 1, by omega, ?_, by simpa using hcmp⟩
          intro j hj
          cases j with
          | zero => simpa using compare_units_eq_of_zero h0
          | succ k => simpa using hagree k (by omega)
        · rw [if_neg h0] at h
          exact ⟨0, by omega, by intro j hj; omega, by simpa using h⟩

theorem dropWhile_length_le (p : Nat → Bool) (l : List Nat) :
    (l.dropWhile p).length ≤ l.length :=
  (List.dropWhile_suffix p).sublist.length_le

theorem dropWhile_eq_self_or_shorter (p : Nat → Bool) (l : List Nat) :
    l.dropWhile p = l ∨ (l.dropWhile p).length < l.length := by
  cases l with
  | nil => left; rfl
  | cons c t =>
    by_cases h : p c
    · right
      rw [List.dropWhile_cons, if_pos h]
      exact Nat.lt_succ_of_le (dropWhile_length_le p t)
    · left
      rw [List.dropWhile_cons, if_neg h]

theorem dropWhile_eq_self_of_headD (p : Nat → Bool) (l : List Nat)
    (h : p (l.headD 0) = false) : l.dropWhile p = l := by
  cases l with
  | nil => rfl
  | cons c t =>
    simp only [List.headD_cons] at h
    rw [List.dropWhile_cons, if_neg (by simp [h])]

theorem dropWhile_headD_not (p : Nat → Bool) (l : List Nat)
    (h : l.dropWhile p ≠ []) : p ((l.dropWhile p).headD 0) = false := by
  induction l with
  | nil => simp at h
  | cons c t ih =>
    by_cases hp : p c
    · rw [List.dropWhile_cons, if_pos hp] at h ⊢
      exact ih h
    · rw [List.dropWhile_cons, if_neg hp]
      simpa using hp

theorem dropWhile_length_lt (p : Nat → Bool) (l : List Nat)
    (hp0 : p 0 = false) (h : p (l.headD 0) = true) :
    (l.dropWhile p).length < l.length := by
  cases l with
  | nil => simp only [List.headD_nil] at h; rw [hp0] at h; exact absurd h (by simp)
  | cons c t =>
    simp only [List.headD_cons] at h
    rw [List.dropWhile_cons, if_pos h]
    exact Nat.lt_succ_of_le (dropWhile_length_le p t)

theorem takeWhile_nil_dropWhile (p : Nat → Bool) (l : List Nat)
    (h : l.takeWhile p = []) : l.dropWhile p = l := by
  cases l with
  | nil => rfl
  | cons c t =>
    by_cases hp : p c
    · rw [List.takeWhile_cons, if_pos hp] at h
      exact absurd h (by simp)
    · rw [List.dropWhile_cons, if_neg hp]

theorem takeWhile_ne_nil_headD (p : Nat → Bool) (l : List Nat)
    (h : l.takeWhile p ≠ []) : p (l.headD 0) = true := by
  cases l with
  | nil => simp at h
  | cons c t =>
    by_cases hp : p c
    · simpa using hp
    · rw [List.takeWhile_cons, if_neg hp] at h
      exact absurd rfl h

theorem takeWhile_cons_headD {p : Nat → Bool} {l : List Nat} {a : Nat}
    {r : List Nat} (h : l.takeWhile p = a :: r) : l.headD 0 = a := by
  cases l with
  | nil => simp at h
  | cons c t =>
    by_cases hp : p c
    · rw [List.takeWhile_cons, if_pos hp] at h
      simpa using (List.cons.injEq .. ▸ h).1
    · rw [List.takeWhile_cons, if_neg hp] at h
      exact absurd h (by simp)

theorem pnum_loop_rest (l : List Nat) : ∀ q : Int,
    (pnum_loop l q).2 = l.dropWhile isDigitB := by
  induction l with
  | nil => intro q; simp [pnum_loop]
  | cons c t ih =>
    intro q
    simp only [pnum_loop, List.dropWhile_cons]
    by_cases h : isDigitB c
    · rw [if_pos h, if_pos h, ih]
    · rw [if_neg h, if_neg h]

theorem parse_number_rest (v : List Nat) :
    (parse_number v).2 = v.dropWhile isDigitB := by
  simp only [parse_number]
  by_cases h : isDigitB (v.headD 0)
  · rw [if_pos h, pnum_loop_rest]
  · rw [if_neg h]
    exact (dropWhile_eq_self_of_headD isDigitB v (by simpa using h)).symm

theorem parse_number_rest_le (v : List Nat) :
    (parse_number v).2.length ≤ v.length := by
  rw [parse_number_rest]; exact dropWhile_length_le isDigitB v

theorem parse_number_consumes (v : List Nat) (h : isDigitB (v.headD 0) = true) :
    (parse_number v).2.length < v.length := by
  rw [parse_number_rest]
  exact dropWhile_length_lt isDigitB v (by decide) h

theorem parse_number_id (v : List Nat) (h : isDigitB (v.headD 0) = false) :
    parse_number v = (-1, v) := by
  have h' : ¬ isDigitB (v.headD 0) = true := by rw [h]; exact Bool.false_ne_true
  simp only [parse_number]
  rw [if_neg h']

theorem parse_alpha_rest (v : List Nat) (f : VersionFlags) :
    (parse_alpha v f).2.2 = v.dropWhile isAlphaB := by
  simp only [parse_alpha]
  by_cases h : (v.takeWhile isAlphaB).length = 0
  · rw [if_pos h]
    exact (takeWhile_nil_dropWhile isAlphaB v (List.length_eq_zero.mp h)).symm
  · rw [if_neg h]

theorem parse_alpha_rest_le (v : List Nat) (f : VersionFlags) :
    (parse_alpha v f).2.2.length ≤ v.length := by
  rw [parse_alpha_rest]; exact dropWhile_length_le isAlphaB v

theorem parse_alpha_consumes (v : List Nat) (f : VersionFlags)
    (h : isAlphaB (v.headD 0) = true) :
    (parse_alpha v f).2.2.length < v.length := by
  rw [parse_alpha_rest]
  exact dropWhile_length_lt isAlphaB v (by decide) h

theorem is_version_char_cases (c : Nat) (h : is_version_char c = true) :
    isDigitB c = true ∨ isAlphaB c = true := by
  simp only [is_version_char, isDigitB, isAlphaB] at *
  rcases Bool.or_eq_true_iff.mp h with h' | h'
  · rcases Bool.or_eq_true_iff.mp h' with h'' | h''
    · left; exact h''
    · right; exact Bool.or_eq_true_iff.mpr (Or.inl h'')
  · right; exact Bool.or_eq_true_iff.mpr (Or.inr h')

theorem get_next_null (v : List Nat) (f : VersionFlags) (h : v.headD 0 = 0) :
    get_next_version_component v f = ([fillerUnit f], v) := by
  have hself : v.dropWhile isSeparator = v :=
    dropWhile_eq_self_of_headD isSeparator v (by rw [h]; decide)
  simp only [get_next_version_component, hself]
  rw [if_pos h]

theorem get_next_rest_eq (v : List Nat) (f : VersionFlags)
    (h0 : ¬ (v.dropWhile isSeparator).headD 0 = 0) :
    (get_next_version_component v f).2 =
      (parse_number
        (parse_alpha (parse_number (v.dropWhile isSeparator)).2 f).2.2).2.dropWhile
        is_version_char := by
  simp only [get_next_version_component]
  rw [if_neg h0]
  split_ifs <;> rfl

theorem get_next_units_len (v : List Nat) (f : VersionFlags) :
    1 ≤ (get_next_version_component v f).1.length ∧
      (get_next_version_component v f).1.length ≤ 2 := by
  simp only [get_next_version_component]
  by_cases h0 : (v.dropWhile isSeparator).headD 0 = 0
  · rw [if_pos h0]; simp
  · rw [if_neg h0]; split_ifs <;> simp

theorem alpha_not_digit (c : Nat) (h : isAlphaB c = true) : isDigitB c = false := by
  simp only [isAlphaB, Bool.or_eq_true, Bool.and_eq_true, decide_eq_true_eq] at h
  simp only [isDigitB, Bool.and_eq_false_iff, decide_eq_false_iff_not]
  omega

theorem get_next_rest_lt (v : List Nat) (f : VersionFlags)
    (h0 : ¬ (v.dropWhile isSeparator).headD 0 = 0) :
    (get_next_version_component v f).2.length < v.length := by
  rw [get_next_rest_eq v f h0]
  set v' := v.dropWhile isSeparator with hv'
  have hne : v' ≠ [] := by
    intro he; rw [he] at h0; exact h0 rfl
  have hsep : isSeparator (v'.headD 0) = false := by
    rw [hv']
    exact dropWhile_headD_not isSeparator v (hv' ▸ hne)
  have hivc : is_version_char (v'.headD 0) = true := by
    have hz : decide (v'.headD 0 ≠ 0) = true := by simpa using h0
    rw [isSeparator, hz] at hsep
    simpa using hsep
  have hstep : (parse_alpha (parse_number v').2 f).2.2.length < v'.length := by
    rcases is_version_char_cases _ hivc with hd | ha
    · calc (parse_alpha (parse_number v').2 f).2.2.length
          ≤ (parse_number v').2.length := parse_alpha_rest_le ..
        _ < v'.length := parse_number_consumes v' hd
    · have hid : parse_number v' = (-1, v') := parse_number_id v' (alpha_not_digit _ ha)
      rw [hid]
      exact parse_alpha_consumes v' f ha
  have h3 := parse_number_rest_le (parse_alpha (parse_number v').2 f).2.2
  have h4 := dropWhile_length_le is_version_char
    (parse_number (parse_alpha (parse_number v').2 f).2.2).2
  have h5 := dropWhile_length_le isSeparator v
  rw [← hv'] at h5
  omega

theorem get_next_spec (v : List Nat) (f : VersionFlags) :
    (get_next_version_component v f).2.length < v.length ∨
      ((get_next_version_component v f).2 = v ∧
        (get_next_version_component v f).1 = [fillerUnit f] ∧ v.headD 0 = 0) := by
  by_cases h0 : (v.dropWhile isSeparator).headD 0 = 0
  · rcases dropWhile_eq_self_or_shorter isSeparator v with he | hlt
    · right
      have hnull : v.headD 0 = 0 := by rw [← he]; exact h0
      rw [get_next_null v f hnull]
      exact ⟨rfl, rfl, hnull⟩
    · left
      simp only [get_next_version_component]
      rw [if_pos h0]
      exact hlt
  · left
    exact get_next_rest_lt v f h0

theorem refill_len_pos (f : VersionFlags) (u : List Unit_t) (v : List Nat) :
    1 ≤ (refill f u v).1.length := by
  by_cases h : u = []
  · subst h
    simp only [refill, if_pos rfl]
    exact (get_next_units_len v f).1
  · simp only [refill, if_neg h]
    cases u with
    | nil => exact absurd rfl h
    | cons a t => simp

theorem refill_cases (f : VersionFlags) (u : List Unit_t) (v : List Nat) :
    (u ≠ [] ∧ refill f u v = (u, v)) ∨
    (u = [] ∧ (refill f u v).1.length ≤ 2 ∧
      ((refill f u v).2.length < v.length ∨
        ((refill f u v).2 = v ∧ (refill f u v).1 = [fillerUnit f] ∧
          v.headD 0 = 0))) := by
  by_cases h : u = []
  · right
    subst h
    refine ⟨rfl, ?_, ?_⟩
    · simp only [refill, if_pos rfl]
      exact (get_next_units_len v f).2
    · simp only [refill, if_pos rfl]
      exact get_next_spec v f
  · left
    refine ⟨h, ?_⟩
    simp [refill, h]

/-- Termination measure for the comparator loop. -/
def vcMeasure (v1 v2 : List Nat) (u1 u2 : List Unit_t) (e1 e2 : Nat) : Nat :=
  3 * (v1.length + v2.length) + u1.length + u2.length + e1 + e2 + 1

theorem vc_fuel_isSome (fuel : Nat) : ∀ (f1 f2 : VersionFlags) (v1 v2 : List Nat)
    (u1 u2 : List Unit_t) (e1 e2 : Nat),
    vcMeasure v1 v2 u1 u2 e1 e2 ≤ fuel →
    (vc_fuel f1 f2 fuel v1 v2 u1 u2 e1 e2).isSome = true := by
  induction fuel with
  | zero =>
    intro f1 f2 v1 v2 u1 u2 e1 e2 h
    simp [vcMeasure] at h
  | succ fuel ih =>
    intro f1 f2 v1 v2 u1 u2 e1 e2 h
    simp only [vc_fuel]
    set p1 := refill f1 u1 v1 with hp1
    set p2 := refill f2 u2 v2 with hp2
    set shift := min p1.1.length p2.1.length with hshift
    by_cases hr : compare_run p1.1 p2.1 shift ≠ 0
    · rw [if_pos hr]; simp
    · rw [if_neg hr]
      set w1 := p1.1.drop shift with hw1
      set w2 := p2.1.drop shift with hw2
      set x1 := decide (p1.2.headD 0 = 0) && w1.isEmpty with hx1
      set x2 := decide (p2.2.headD 0 = 0) && w2.isEmpty with hx2
      set b1 := x1 && decide (0 < e1) with hb1
      set b2 := x2 && decide (0 < e2) with hb2
      by_cases hexit : ((x1 && !b1) && (x2 && !b2)) = true
      · rw [if_pos hexit]; simp
      · rw [if_neg hexit]
        apply ih
        have hl1 : 1 ≤ p1.1.length := refill_len_pos f1 u1 v1
        have hl2 : 1 ≤ p2.1.length := refill_len_pos f2 u2 v2
        have hshift1 : 1 ≤ shift := by rw [hshift]; omega
        have hshiftle1 : shift ≤ p1.1.length := by rw [hshift]; omega
        have hshiftle2 : shift ≤ p2.1.length := by rw [hshift]; omega
        have hwl1 : w1.length = p1.1.length - shift := by
          rw [hw1]; exact List.length_drop ..
        have hwl2 : w2.length = p2.1.length - shift := by
          rw [hw2]; exact List.length_drop ..
        have he1le : (if b1 then e1 - 1 else e1) ≤ e1 := by split_ifs <;> omega
        have he2le : (if b2 then e2 - 1 else e2) ≤ e2 := by split_ifs <;> omega
        simp only [vcMeasure] at h ⊢
        have hA : (3 * p1.2.length + p1.1.length + 1 ≤ 3 * v1.length + u1.length) ∨
            (p1.2.length = v1.length ∧ p1.1.length = u1.length) ∨
            (p1.2.length = v1.length ∧ p1.1.length = 1 ∧ u1.length = 0 ∧
              p1.2.headD 0 = 0) := by
          rcases refill_cases f1 u1 v1 with ⟨hu, hc⟩ | ⟨hu, hlen, hc⟩
          · rw [← hp1] at hc
            right; left
            rw [hc]
            exact ⟨rfl, rfl⟩
          · rw [← hp1] at hlen hc
            have hu0 : u1.length = 0 := by rw [hu]; rfl
            rcases hc with hlt | ⟨hs, hfl, hn⟩
            · left; omega
            · right; right
              refine ⟨by rw [hs], by rw [hfl]; rfl, hu0, by rw [hs]; exact hn⟩
        have hB : (3 * p2.2.length + p2.1.length + 1 ≤ 3 * v2.length + u2.length) ∨
            (p2.2.length = v2.length ∧ p2.1.length = u2.length) ∨
            (p2.2.length = v2.length ∧ p2.1.length = 1 ∧ u2.length = 0 ∧
              p2.2.headD 0 = 0) := by
          rcases refill_cases f2 u2 v2 with ⟨hu, hc⟩ | ⟨hu, hlen, hc⟩
          · rw [← hp2] at hc
            right; left
            rw [hc]
            exact ⟨rfl, rfl⟩
          · rw [← hp2] at hlen hc
            have hu0 : u2.length = 0 := by rw [hu]; rfl
            rcases hc with hlt | ⟨hs, hfl, hn⟩
            · left; omega
            · right; right
              refine ⟨by rw [hs], by rw [hfl]; rfl, hu0, by rw [hs]; exact hn⟩
        rcases hA with hA | hA | hA <;> rcases hB with hB | hB | hB
        · omega
        · omega
        · omega
        · omega
        · omega
        · omega
        · omega
        · omega
        · -- both sides emitted only the filler unit at end of string:
          -- the continue branch forces an extra-component decrement
          obtain ⟨hA1, hA2, hA3, hA4⟩ := hA
          obtain ⟨hB1, hB2, hB3, hB4⟩ := hB
          have hw1nil : w1 = [] := List.eq_nil_of_length_eq_zero (by omega)
          have hw2nil : w2 = [] := List.eq_nil_of_length_eq_zero (by omega)
          have hx1t : x1 = true := by rw [hx1, hA4, hw1nil]; simp
          have hx2t : x2 = true := by rw [hx2, hB4, hw2nil]; simp
          rw [hx1t, hx2t] at hexit
          rw [hx1t] at hb1
          rw [hx2t] at hb2
          simp only [Bool.true_and] at hb1 hb2
          by_cases hb1t : b1 = true
          · have he1 : 0 < e1 := by rw [hb1] at hb1t; simpa using hb1t
            rw [if_pos hb1t]
            omega
          · by_cases hb2t : b2 = true
            · have he2 : 0 < e2 := by rw [hb2] at hb2t; simpa using hb2t
              rw [if_neg hb1t, if_pos hb2t]
              omega
            · exfalso
              apply hexit
              simp [Bool.eq_false_iff.mpr hb1t, Bool.eq_false_iff.mpr hb2t]

theorem vc_fuel_range (fuel : Nat) : ∀ (f1 f2 : VersionFlags) (v1 v2 : List Nat)
    (u1 u2 : List Unit_t) (e1 e2 : Nat) (r : Int),
    vc_fuel f1 f2 fuel v1 v2 u1 u2 e1 e2 = some r →
    r = -1 ∨ r = 0 ∨ r = 1 := by
  induction fuel with
  | zero => intro f1 f2 v1 v2 u1 u2 e1 e2 r h; simp [vc_fuel] at h
  | succ fuel ih =>
    intro f1 f2 v1 v2 u1 u2 e1 e2 r h
    simp only [vc_fuel] at h
    split at h
    · have hr := Option.some.inj h
      rw [← hr]
      exact compare_run_range ..
    · split at h
      · have hr := Option.some.inj h
        omega
      · exact ih _ _ _ _ _ _ _ _ _ h

theorem vc_fuel_refl (fuel : Nat) : ∀ (f : VersionFlags) (v : List Nat)
    (u : List Unit_t) (e : Nat),
    vc_fuel f f fuel v v u u e e = none ∨
      vc_fuel f f fuel v v u u e e = some 0 := by
  induction fuel with
  | zero => intro f v u e; left; rfl
  | succ fuel ih =>
    intro f v u e
    simp only [vc_fuel]
    have hcr : compare_run (refill f u v).1 (refill f u v).1
        (min (refill f u v).1.length (refill f u v).1.length) = 0 :=
      compare_run_self ..
    rw [if_neg (fun hne => hne hcr)]
    split
    · right; rfl
    · exact ih f _ _ _

theorem vc_fuel_antisym (fuel : Nat) : ∀ (f1 f2 : VersionFlags) (v1 v2 : List Nat)
    (u1 u2 : List Unit_t) (e1 e2 : Nat) (r : Int),
    vc_fuel f1 f2 fuel v1 v2 u1 u2 e1 e2 = some r →
    vc_fuel f2 f1 fuel v2 v1 u2 u1 e2 e1 = some (-r) := by
  induction fuel with
  | zero => intro f1 f2 v1 v2 u1 u2 e1 e2 r h; simp [vc_fuel] at h
  | succ fuel ih =>
    intro f1 f2 v1 v2 u1 u2 e1 e2 r h
    simp only [vc_fuel] at h ⊢
    rw [Nat.min_comm (refill f2 u2 v2).1.length (refill f1 u1 v1).1.length]
    rw [compare_run_neg (min (refill f1 u1 v1).1.length (refill f2 u2 v2).1.length)
      (refill f2 u2 v2).1 (refill f1 u1 v1).1]
    split at h
    · rename_i hcond
      rw [if_pos (neg_ne_zero.mpr hcond)]
      rw [Option.some.inj h]
    · rename_i hcond
      have hc0 := not_not.mp hcond
      rw [hc0]
      rw [if_neg (by decide)]
      split at h
      · rename_i hcond2
        rw [Bool.and_comm] at hcond2
        rw [if_pos hcond2]
        rw [← Option.some.inj h]
        norm_num
      · rename_i hcond2
        rw [Bool.and_comm] at hcond2
        rw [if_neg hcond2]
        exact ih _ _ _ _ _ _ _ _ _ h

theorem init_extra_le_one (f : VersionFlags) : init_extra f ≤ 1 := by
  simp only [init_extra]
  split_ifs <;> omega

theorem vcMeasure_start_le (v1 v2 : List Nat) (f1 f2 : VersionFlags) :
    vcMeasure v1 v2 [] [] (init_extra f1) (init_extra f2) ≤ fuelFor v1 v2 := by
  have h1 := init_extra_le_one f1
  have h2 := init_extra_le_one f2
  simp only [vcMeasure, fuelFor, List.length_nil]
  omega

theorem vc4_eval (v1 v2 : List Nat) (f1 f2 : VersionFlags) :
    ∃ r, vc_fuel f1 f2 (fuelFor v1 v2) v1 v2 [] []
        (init_extra f1) (init_extra f2) = some r ∧
      version_compare4 v1 v2 f1 f2 = r := by
  have hs := vc_fuel_isSome (fuelFor v1 v2) f1 f2 v1 v2 [] []
    (init_extra f1) (init_extra f2) (vcMeasure_start_le v1 v2 f1 f2)
  obtain ⟨r, hr⟩ := Option.isSome_iff_exists.mp hs
  exact ⟨r, hr, by simp [version_compare4, hr]⟩

/-- C9: for every pair of byte strings and every pair of flag words the
comparator loop terminates within fuel linear in the combined input
length (it never runs out of the `fuelFor` budget), so
`version_compare4` is a total function whose result is always
`-1`, `0` or `1`. -/
theorem version_compare4_total (v1 v2 : List Nat) (f1 f2 : VersionFlags) :
    ∃ r, vc_fuel f1 f2 (fuelFor v1 v2) v1 v2 [] []
        (init_extra f1) (init_extra f2) = some r ∧
      version_compare4 v1 v2 f1 f2 = r ∧ (r = -1 ∨ r = 0 ∨ r = 1) := by
  obtain ⟨r, hr, he⟩ := vc4_eval v1 v2 f1 f2
  exact ⟨r, hr, he, vc_fuel_range _ _ _ _ _ _ _ _ _ _ hr⟩

/-- C2: reflexivity — comparing any byte string with itself under any
(identical) pair of flag words yields 0. -/
theorem version_compare4_refl (x : List Nat) (f : VersionFlags) :
    version_compare4 x x f f = 0 := by
  obtain ⟨r, hr, he⟩ := vc4_eval x x f f
  rcases vc_fuel_refl (fuelFor x x) f x [] (init_extra f) with h0 | h0
  · rw [hr] at h0
    exact absurd h0 (by simp)
  · rw [hr] at h0
    rw [he, Option.some.inj h0]

/-- C3: antisymmetry — swapping the two version strings together with
their flag words negates the sign of the comparison result. -/
theorem version_compare4_antisym_sign (x y : List Nat) (f g : VersionFlags) :
    Int.sign (version_compare4 x y f g) =
      - Int.sign (version_compare4 y x g f) := by
  obtain ⟨r, hr, he⟩ := vc4_eval y x g f
  have hflip := vc_fuel_antisym (fuelFor y x) g f y x [] []
    (init_extra g) (init_extra f) r hr
  have hfuel : fuelFor y x = fuelFor x y := by
    simp only [fuelFor]
    omega
  rw [hfuel] at hflip
  obtain ⟨s, hs, hse⟩ := vc4_eval x y f g
  rw [hs] at hflip
  have hsr := Option.some.inj hflip
  rw [he, hse, hsr, Int.sign_neg]

/-- The exact mathematical value of a digit run (the value the spec's
"parsed value" refers to, before any clamping). -/
def digitsVal (l : List Nat) : Int :=
  l.foldl (fun (acc : Int) (c : Nat) => 10 * acc + ((c : Int) - 48)) 0

theorem pnum_loop_val (l : List Nat) : ∀ acc : Int, 0 ≤ acc →
    (pnum_loop l (min acc VERSION_COMPONENT_MAX)).1 =
      min (List.foldl (fun (a : Int) (c : Nat) => 10 * a + ((c : Int) - 48)) acc
        (l.takeWhile isDigitB)) VERSION_COMPONENT_MAX := by
  induction l with
  | nil => intro acc hacc; simp [pnum_loop]
  | cons c t ih =>
    intro acc hacc
    by_cases hd : isDigitB c
    · have hc : 48 ≤ c ∧ c ≤ 57 := by
        simpa [isDigitB] using hd
      rw [List.takeWhile_cons, if_pos hd, List.foldl_cons]
      simp only [pnum_loop]
      rw [if_pos hd]
      have hM : VERSION_COMPONENT_MAX = 9223372036854775807 := rfl
      have hdiv : min acc VERSION_COMPONENT_MAX ≤
          (VERSION_COMPONENT_MAX - ((c : Int) - 48)) / 10 ↔
          (min acc VERSION_COMPONENT_MAX) * 10 ≤
            VERSION_COMPONENT_MAX - ((c : Int) - 48) :=
        Int.le_ediv_iff_mul_le (by norm_num)
      have key : (if min acc VERSION_COMPONENT_MAX ≤
            (VERSION_COMPONENT_MAX - ((c : Int) - 48)) / 10 then
          (min acc VERSION_COMPONENT_MAX) * 10 + ((c : Int) - 48)
        else VERSION_COMPONENT_MAX) =
          min (10 * acc + ((c : Int) - 48)) VERSION_COMPONENT_MAX := by
        by_cases hcond : min acc VERSION_COMPONENT_MAX ≤
            (VERSION_COMPONENT_MAX - ((c : Int) - 48)) / 10
        · rw [if_pos hcond]
          have h10 := hdiv.mp hcond
          omega
        · rw [if_neg hcond]
          have h10 : ¬ (min acc VERSION_COMPONENT_MAX) * 10 ≤
              VERSION_COMPONENT_MAX - ((c : Int) - 48) :=
            fun hh => hcond (hdiv.mpr hh)
          omega
      rw [key]
      exact ih (10 * acc + ((c : Int) - 48)) (by omega)
    · rw [List.takeWhile_cons, if_neg hd]
      simp only [pnum_loop]
      rw [if_neg hd]
      simp

/-- C7: the number parser consumes the longest ASCII digit prefix; an
empty digit run leaves the cursor unchanged and returns -1; otherwise
the returned value is the digit run's value clamped to
`VERSION_COMPONENT_MAX`, and the cursor always advances past the whole
run (the function is total, so it never traps). -/
theorem parse_number_contract (v : List Nat) :
    (parse_number v).2 = v.dropWhile isDigitB ∧
    (isDigitB (v.headD 0) = false → parse_number v = (-1, v)) ∧
    (isDigitB (v.headD 0) = true →
      (parse_number v).1 =
        min (digitsVal (v.takeWhile isDigitB)) VERSION_COMPONENT_MAX) := by
  refine ⟨parse_number_rest v, parse_number_id v, fun h => ?_⟩
  have h0 : (0 : Int) = min 0 VERSION_COMPONENT_MAX := by
    rw [min_eq_left (by decide)]
  simp only [parse_number]
  rw [if_pos h, digitsVal, h0]
  exact pnum_loop_val v 0 le_rfl

theorem parse_number_contract_witness :
    (isDigitB (List.headD [57, 57] 0) = true) ∧
    (parse_number [57, 57]).1 =
      min (digitsVal (List.takeWhile isDigitB [57, 57])) VERSION_COMPONENT_MAX :=
  ⟨by decide, (parse_number_contract [57, 57]).2.2 (by decide)⟩

theorem takeWhile_nil_of_headD (p : Nat → Bool) (l : List Nat)
    (h : p (l.headD 0) = false) : l.takeWhile p = [] := by
  cases l with
  | nil => rfl
  | cons c t =>
    simp only [List.headD_cons] at h
    rw [List.takeWhile_cons, if_neg (by simp [h])]

theorem takeWhile_append_all (p : Nat → Bool) (r t : List Nat)
    (hr : r.all p = true) (ht : p (t.headD 0) = false) :
    (r ++ t).takeWhile p = r ∧ (r ++ t).dropWhile p = t := by
  induction r with
  | nil =>
    simp only [List.nil_append]
    exact ⟨takeWhile_nil_of_headD p t ht, dropWhile_eq_self_of_headD p t ht⟩
  | cons c r ih =>
    simp only [List.all_cons, Bool.and_eq_true] at hr
    obtain ⟨ih1, ih2⟩ := ih hr.2
    constructor
    · rw [List.cons_append, List.takeWhile_cons, if_pos hr.1, ih1]
    · rw [List.cons_append, List.dropWhile_cons, if_pos hr.1, ih2]

theorem headD_append (r t : List Nat) (h : r ≠ []) :
    (r ++ t).headD 0 = r.headD 0 := by
  cases r with
  | nil => exact absurd rfl h
  | cons c r => rfl

theorem parse_alpha_val (v : List Nat) (f : VersionFlags)
    (h : v.takeWhile isAlphaB ≠ []) :
    (parse_alpha v f).1 = ((tolower (v.headD 0) : Nat) : Int) := by
  simp only [parse_alpha]
  rw [if_neg (fun hh => h (List.length_eq_zero.mp hh))]

/-- C8: a single-letter run `p` or `P` classifies as postrelease exactly
when the `P_IS_PATCH` flag is set for that side; consequently
`version_compare4("1.0p1", "1.0", P_IS_PATCH, 0) > 0` while
`version_compare4("1.0p1", "1.0", 0, 0) < 0`. -/
theorem p_is_patch_claim (v : List Nat) (f : VersionFlags)
    (h : v.takeWhile isAlphaB = [112] ∨ v.takeWhile isAlphaB = [80]) :
    ((parse_alpha v f).2.1 = ALPHAFLAG_POSTRELEASE ↔ f.p_is_patch = true) ∧
    version_compare4 [49, 46, 48, 112, 49] [49, 46, 48]
      ⟨true, false, false, false⟩ flags0 = 1 ∧
    version_compare4 [49, 46, 48, 112, 49] [49, 46, 48] flags0 flags0 = -1 := by
  refine ⟨?_, by decide, by decide⟩
  rcases h with h | h
  · have hs : v.headD 0 = 112 := takeWhile_cons_headD h
    simp only [parse_alpha]
    rw [h, hs]
    by_cases fp : f.p_is_patch
    · simp [fp, mymemcasecmp, wALPHA, wBETA, wRC, wPRE, wPOST, wPATCH, wPL,
        wERRATA, ALPHAFLAG_PRERELEASE, ALPHAFLAG_POSTRELEASE, tolower]
    · simp [fp, mymemcasecmp, wALPHA, wBETA, wRC, wPRE, wPOST, wPATCH, wPL,
        wERRATA, ALPHAFLAG_PRERELEASE, ALPHAFLAG_POSTRELEASE, tolower]
  · have hs : v.headD 0 = 80 := takeWhile_cons_headD h
    simp only [parse_alpha]
    rw [h, hs]
    by_cases fp : f.p_is_patch
    · simp [fp, mymemcasecmp, wALPHA, wBETA, wRC, wPRE, wPOST, wPATCH, wPL,
        wERRATA, ALPHAFLAG_PRERELEASE, ALPHAFLAG_POSTRELEASE, tolower]
    · simp [fp, mymemcasecmp, wALPHA, wBETA, wRC, wPRE, wPOST, wPATCH, wPL,
        wERRATA, ALPHAFLAG_PRERELEASE, ALPHAFLAG_POSTRELEASE, tolower]

theorem p_is_patch_claim_witness :
    ([112].takeWhile isAlphaB = [112] ∨ [112].takeWhile isAlphaB = [80]) ∧
    ((parse_alpha [112] ⟨true, false, false, false⟩).2.1 = ALPHAFLAG_POSTRELEASE ↔
      (⟨true, false, false, false⟩ : VersionFlags).p_is_patch = true) :=
  ⟨Or.inl (by decide),
    (p_is_patch_claim [112] ⟨true, false, false, false⟩ (Or.inl (by decide))).1⟩

/-- C10: only the first letter of an alphabetic run participates in the
ordering: two neutrally-classified letter runs with the same folded
first letter are interchangeable inside `parse_alpha` (they produce
identical results), and e.g. `version_compare2("1.0ab", "1.0ac") = 0`. -/
theorem neutral_alpha_first_letter (r1 r2 t : List Nat) (f : VersionFlags)
    (h1 : r1 ≠ []) (h2 : r2 ≠ [])
    (ha1 : r1.all isAlphaB = true) (ha2 : r2.all isAlphaB = true)
    (ht : isAlphaB (t.headD 0) = false)
    (hc1 : (parse_alpha (r1 ++ t) f).2.1 = 0)
    (hc2 : (parse_alpha (r2 ++ t) f).2.1 = 0)
    (hfold : tolower (r1.headD 0) = tolower (r2.headD 0)) :
    parse_alpha (r1 ++ t) f = parse_alpha (r2 ++ t) f ∧
    version_compare2 [49, 46, 48, 97, 98] [49, 46, 48, 97, 99] = 0 := by
  refine ⟨?_, by decide⟩
  obtain ⟨htw1, hdw1⟩ := takeWhile_append_all isAlphaB r1 t ha1 ht
  obtain ⟨htw2, hdw2⟩ := takeWhile_append_all isAlphaB r2 t ha2 ht
  have hne1 : (r1 ++ t).takeWhile isAlphaB ≠ [] := by rw [htw1]; exact h1
  have hne2 : (r2 ++ t).takeWhile isAlphaB ≠ [] := by rw [htw2]; exact h2
  have k1 : (parse_alpha (r1 ++ t) f).1 = (parse_alpha (r2 ++ t) f).1 := by
    rw [parse_alpha_val _ f hne1, parse_alpha_val _ f hne2,
      headD_append r1 t h1, headD_append r2 t h2, hfold]
  have k2 : (parse_alpha (r1 ++ t) f).2.1 = (parse_alpha (r2 ++ t) f).2.1 := by
    rw [hc1, hc2]
  have k3 : (parse_alpha (r1 ++ t) f).2.2 = (parse_alpha (r2 ++ t) f).2.2 := by
    rw [parse_alpha_rest, parse_alpha_rest, hdw1, hdw2]
  exact Prod.ext k1 (Prod.ext k2 k3)

theorem neutral_alpha_first_letter_witness :
    parse_alpha ([97, 98] ++ []) flags0 = parse_alpha ([97, 99] ++ []) flags0 :=
  (neutral_alpha_first_letter [97, 98] [97, 99] [] flags0 (by decide) (by decide)
    (by decide) (by decide) (by decide) (by decide) (by decide) (by decide)).1

theorem list_len_six {α : Type} (l : List α) (h : l.length = 6) :
    ∃ a b c d e g, l = [a, b, c, d, e, g] := by
  rcases l with _ | ⟨a, l⟩
  · simp at h
  rcases l with _ | ⟨b, l⟩
  · simp at h
  rcases l with _ | ⟨c, l⟩
  · simp at h
  rcases l with _ | ⟨d, l⟩
  · simp at h
  rcases l with _ | ⟨e, l⟩
  · simp at h
  rcases l with _ | ⟨g, l⟩
  · simp at h
  have hl : l = [] := by
    simp only [List.length_cons] at h
    exact List.length_eq_zero.mp (by omega)
  exact ⟨a, b, c, d, e, g, by rw [hl]⟩

theorem parse_alpha_six_er (v : List Nat) (f : VersionFlags)
    (hlen : (v.takeWhile isAlphaB).length = 6)
    (herr : mymemcasecmp (v.takeWhile isAlphaB) [101, 114, 114] 3 = 0) :
    (parse_alpha v f).2.1 = ALPHAFLAG_POSTRELEASE := by
  obtain ⟨a, b, c, d, e, g, hrun⟩ := list_len_six _ hlen
  rw [hrun] at herr
  have hfacts : tolower a = 101 ∧ tolower b = 114 ∧ tolower c = 114 := by
    simp only [mymemcasecmp, show tolower 101 = 101 from rfl,
      show tolower 114 = 114 from rfl] at herr
    by_cases h1 : tolower a = 101
    · rw [if_pos h1] at herr
      by_cases h2 : tolower b = 114
      · rw [if_pos h2] at herr
        by_cases h3 : tolower c = 114
        · exact ⟨h1, h2, h3⟩
        · rw [if_neg h3] at herr
          exact absurd (by omega) h3
      · rw [if_neg h2] at herr
        exact absurd (by omega) h2
    · rw [if_neg h1] at herr
      exact absurd (by omega) h1
  obtain ⟨h1, h2, h3⟩ := hfacts
  have hstart : v.headD 0 = a := takeWhile_cons_headD hrun
  simp only [parse_alpha]
  rw [hrun, hstart]
  rw [if_neg (by simp)]
  rw [if_neg (by simp)]
  rw [if_neg (by simp)]
  rw [if_neg (by simp)]
  rw [if_neg (by
    intro hh
    have hh2 := hh.2
    simp [mymemcasecmp, wPRE, h1, show tolower 112 = 112 from rfl] at hh2)]
  rw [if_neg (by
    intro hh
    have hh2 := hh.2
    simp [mymemcasecmp, wPOST, h1, show tolower 112 = 112 from rfl] at hh2)]
  rw [if_neg (by simp)]
  rw [if_neg (by simp)]
  rw [if_pos ⟨rfl, by
    simp [mymemcasecmp, wERRATA, h1, h2, show tolower 101 = 101 from rfl,
      show tolower 114 = 114 from rfl]⟩]

/-- C1 counterexample: "erratas", a 7-letter run that begins
case-insensitively with "err", is classified neutral (0), while the
exact 6-letter word "errata" is classified postrelease — refuting the
claim that every letter run of length at least 6 beginning "err"
classifies as postrelease like "errata" does. -/
theorem errata_claim_cex :
    (6 ≤ (List.takeWhile isAlphaB [101, 114, 114, 97, 116, 97, 115]).length ∧
      mymemcasecmp (List.takeWhile isAlphaB [101, 114, 114, 97, 116, 97, 115])
        [101, 114, 114] 3 = 0) ∧
    (parse_alpha [101, 114, 114, 97, 116, 97, 115] flags0).2.1 ≠
      ALPHAFLAG_POSTRELEASE ∧
    (parse_alpha [101, 114, 114, 97, 116, 97] flags0).2.1 =
      ALPHAFLAG_POSTRELEASE := by
  decide

/-- C1 (amended): the alpha parser classifies as postrelease every
ASCII letter run of length exactly 6 that begins, case-insensitively,
with "err"; such a run yields the same classification as the exact
word "errata". -/
theorem errata_claim_amended (v : List Nat) (f : VersionFlags)
    (hlen : (v.takeWhile isAlphaB).length = 6)
    (herr : mymemcasecmp (v.takeWhile isAlphaB) [101, 114, 114] 3 = 0) :
    (parse_alpha v f).2.1 = ALPHAFLAG_POSTRELEASE ∧
    (parse_alpha [101, 114, 114, 97, 116, 97] f).2.1 = ALPHAFLAG_POSTRELEASE :=
  ⟨parse_alpha_six_er v f hlen herr,
    parse_alpha_six_er [101, 114, 114, 97, 116, 97] f (by decide) (by decide)⟩

theorem errata_claim_amended_witness :
    (([69, 82, 82, 88, 89, 90].takeWhile isAlphaB).length = 6 ∧
      mymemcasecmp ([69, 82, 82, 88, 89, 90].takeWhile isAlphaB)
        [101, 114, 114] 3 = 0) ∧
    (parse_alpha [69, 82, 82, 88, 89, 90] flags0).2.1 = ALPHAFLAG_POSTRELEASE :=
  ⟨⟨by decide, by decide⟩,
    (errata_claim_amended [69, 82, 82, 88, 89, 90] flags0
      (by decide) (by decide)).1⟩

theorem parse_alpha_val_ne (w : List Nat) (f : VersionFlags)
    (h : (parse_alpha w f).2.1 ≠ 0) : (parse_alpha w f).1 ≠ -1 := by
  by_cases hrun : w.takeWhile isAlphaB = []
  · exfalso
    apply h
    simp only [parse_alpha]
    rw [if_pos (by rw [hrun]; rfl)]
  · rw [parse_alpha_val w f hrun]
    intro hq
    omega

/-- C5: a number followed by an alpha run classified prerelease is
"unglued": the extractor emits a pure-number unit followed by a
companion unit whose first field is -1 (so the combination sorts below
the bare number); in particular
`version_compare2("1.0alpha1", "1.0") < 0`. -/
theorem prerelease_unglue (v : List Nat) (f : VersionFlags)
    (hv : is_version_char (v.headD 0) = true)
    (hnum : (parse_number v).1 ≠ -1)
    (hany : f.any_is_patch = false)
    (hpre : (parse_alpha (parse_number v).2 f).2.1 = ALPHAFLAG_PRERELEASE) :
    get_next_version_component v f =
      ([⟨(parse_number v).1, -1, -1⟩,
        ⟨-1, (parse_alpha (parse_number v).2 f).1,
          (parse_number (parse_alpha (parse_number v).2 f).2.2).1⟩],
       (parse_number (parse_alpha (parse_number v).2 f).2.2).2.dropWhile
         is_version_char) ∧
    version_compare2 [49, 46, 48, 97, 108, 112, 104, 97, 49] [49, 46, 48] = -1 := by
  refine ⟨?_, by decide⟩
  have hvd : v.dropWhile isSeparator = v := by
    apply dropWhile_eq_self_of_headD
    simp only [isSeparator, hv, Bool.not_true, Bool.and_false]
  have hnz : ¬ v.headD 0 = 0 := by
    intro hz
    rw [hz] at hv
    exact absurd hv (by decide)
  have halpha : (parse_alpha (parse_number v).2 f).1 ≠ -1 :=
    parse_alpha_val_ne _ f (by rw [hpre]; decide)
  have haf : (if f.any_is_patch then ALPHAFLAG_POSTRELEASE
      else (parse_alpha (parse_number v).2 f).2.1) = ALPHAFLAG_PRERELEASE := by
    rw [hany, if_neg (by simp)]
    exact hpre
  simp only [get_next_version_component, hvd]
  rw [if_neg hnz]
  by_cases hex : (parse_number (parse_alpha (parse_number v).2 f).2.2).1 ≠ -1
  · rw [if_pos ⟨hnum, hex⟩, haf, if_neg (by decide)]
  · have hexm : (parse_number (parse_alpha (parse_number v).2 f).2.2).1 = -1 :=
      not_not.mp hex
    rw [if_neg (fun hh => hex hh.2)]
    rw [if_pos ⟨hnum, halpha, by rw [haf]; decide⟩]
    rw [haf, if_neg (by decide), hexm]

theorem prerelease_unglue_witness :
    (is_version_char (List.headD [48, 97, 108, 112, 104, 97] 0) = true ∧
      (parse_number [48, 97, 108, 112, 104, 97]).1 ≠ -1 ∧
      flags0.any_is_patch = false ∧
      (parse_alpha (parse_number [48, 97, 108, 112, 104, 97]).2 flags0).2.1 =
        ALPHAFLAG_PRERELEASE) ∧
    get_next_version_component [48, 97, 108, 112, 104, 97] flags0 =
      ([⟨0, -1, -1⟩, ⟨-1, 97, -1⟩], []) :=
  ⟨⟨by decide, by decide, by decide, by decide⟩, by
    have h := (prerelease_unglue [48, 97, 108, 112, 104, 97] flags0
      (by decide) (by decide) (by decide) (by decide)).1
    rw [h]
    decide⟩

/-- The flag word with only `LOWER_BOUND` set. -/
def flagsL : VersionFlags := ⟨false, false, true, false⟩
/-- The flag word with only `UPPER_BOUND` set. -/
def flagsU : VersionFlags := ⟨false, false, false, true⟩

theorem get_next_flags_agnostic (v : List Nat) (f g : VersionFlags)
    (hp : f.p_is_patch = g.p_is_patch) (ha : f.any_is_patch = g.any_is_patch)
    (h0 : ¬ (v.dropWhile isSeparator).headD 0 = 0) :
    get_next_version_component v f = get_next_version_component v g := by
  simp only [get_next_version_component]
  rw [if_neg h0, if_neg h0]
  have hpa : parse_alpha (parse_number (v.dropWhile isSeparator)).2 f
      = parse_alpha (parse_number (v.dropWhile isSeparator)).2 g := by
    simp only [parse_alpha, hp]
  rw [hpa, ha]

theorem exit_cond_false (a b : Bool) :
    ((a && !(a && decide (0 < 1))) && (b && !(b && decide (0 < 0)))) = false := by
  cases a <;> cases b <;> rfl

theorem vc_fuel_lower_null (fuel : Nat) (v : List Nat) (hv : v.headD 0 = 0) :
    vc_fuel flagsL flags0 fuel v v [] [] 0 0 = none ∨
    vc_fuel flagsL flags0 fuel v v [] [] 0 0 = some (-1) := by
  cases fuel with
  | zero => left; rfl
  | succ fuel =>
    right
    simp only [vc_fuel]
    have h1 : refill flagsL [] v = ([fillerUnit flagsL], v) := by
      simp only [refill, if_pos rfl]
      exact get_next_null v flagsL hv
    have h2 : refill flags0 [] v = ([fillerUnit flags0], v) := by
      simp only [refill, if_pos rfl]
      exact get_next_null v flags0 hv
    rw [h1, h2]
    rfl

theorem vc_fuel_upper_null (fuel : Nat) (v : List Nat) (hv : v.headD 0 = 0) :
    vc_fuel flagsU flags0 fuel v v [] [] 0 0 = none ∨
    vc_fuel flagsU flags0 fuel v v [] [] 0 0 = some 1 := by
  cases fuel with
  | zero => left; rfl
  | succ fuel =>
    right
    simp only [vc_fuel]
    have h1 : refill flagsU [] v = ([fillerUnit flagsU], v) := by
      simp only [refill, if_pos rfl]
      exact get_next_null v flagsU hv
    have h2 : refill flags0 [] v = ([fillerUnit flags0], v) := by
      simp only [refill, if_pos rfl]
      exact get_next_null v flags0 hv
    rw [h1, h2]
    rfl

theorem and_dec_one (x : Bool) : (x && decide (0 < 1)) = x := by
  cases x <;> rfl

theorem and_dec_zero (x : Bool) : (x && decide (0 < 0)) = false := by
  cases x <;> rfl

theorem vc_fuel_lower_run (fuel : Nat) : ∀ (v : List Nat) (u : List Unit_t),
    vc_fuel flagsL flags0 fuel v v u u 1 0 = none ∨
    vc_fuel flagsL flags0 fuel v v u u 1 0 = some (-1) := by
  induction fuel with
  | zero => intro v u; left; rfl
  | succ fuel ih =>
    intro v u
    simp only [vc_fuel]
    by_cases hu : u = []
    · subst hu
      by_cases h0 : (v.dropWhile isSeparator).headD 0 = 0
      · have h1 : refill flagsL [] v =
            ([fillerUnit flagsL], v.dropWhile isSeparator) := by
          simp only [refill, if_pos rfl, get_next_version_component, if_true]
          rw [if_pos h0]
        have h2 : refill flags0 [] v =
            ([fillerUnit flags0], v.dropWhile isSeparator) := by
          simp only [refill, if_pos rfl, get_next_version_component, if_true]
          rw [if_pos h0]
        rw [h1, h2]
        right
        rfl
      · have h1 : refill flagsL [] v = get_next_version_component v flags0 := by
          rw [show refill flagsL [] v = get_next_version_component v flagsL from rfl]
          exact get_next_flags_agnostic v flagsL flags0 rfl rfl h0
        have h2 : refill flags0 [] v = get_next_version_component v flags0 := rfl
        rw [h1, h2]
        rw [if_neg (fun hne => hne (compare_run_self ..))]
        rw [if_neg (by rw [exit_cond_false]; simp)]
        rw [and_dec_one, and_dec_zero, if_neg Bool.false_ne_true]
        split
        · rename_i hx
          simp only [Bool.and_eq_true] at hx
          obtain ⟨hd, he⟩ := hx
          have hnull : (get_next_version_component v flags0).2.headD 0 = 0 :=
            of_decide_eq_true hd
          have hW : (get_next_version_component v flags0).1.drop
              (min (get_next_version_component v flags0).1.length
                (get_next_version_component v flags0).1.length) = [] := by
            rw [← List.isEmpty_iff]
            exact he
          rw [hW]
          exact vc_fuel_lower_null fuel _ hnull
        · exact ih _ _
    · have h1 : refill flagsL u v = (u, v) := by
        simp only [refill]
        rw [if_neg hu]
      have h2 : refill flags0 u v = (u, v) := by
        simp only [refill]
        rw [if_neg hu]
      rw [h1, h2]
      rw [if_neg (fun hne => hne (compare_run_self ..))]
      rw [if_neg (by rw [exit_cond_false]; simp)]
      rw [and_dec_one, and_dec_zero, if_neg Bool.false_ne_true]
      split
      · rename_i hx
        simp only [Bool.and_eq_true] at hx
        obtain ⟨hd, he⟩ := hx
        have hnull : v.headD 0 = 0 := of_decide_eq_true hd
        have hW : u.drop (min u.length u.length) = [] := by
          rw [← List.isEmpty_iff]
          exact he
        rw [hW]
        exact vc_fuel_lower_null fuel _ hnull
      · exact ih _ _

theorem vc_fuel_upper_run (fuel : Nat) : ∀ (v : List Nat) (u : List Unit_t),
    vc_fuel flagsU flags0 fuel v v u u 1 0 = none ∨
    vc_fuel flagsU flags0 fuel v v u u 1 0 = some 1 := by
  induction fuel with
  | zero => intro v u; left; rfl
  | succ fuel ih =>
    intro v u
    simp only [vc_fuel]
    by_cases hu : u = []
    · subst hu
      by_cases h0 : (v.dropWhile isSeparator).headD 0 = 0
      · have h1 : refill flagsU [] v =
            ([fillerUnit flagsU], v.dropWhile isSeparator) := by
          simp only [refill, if_pos rfl, get_next_version_component, if_true]
          rw [if_pos h0]
        have h2 : refill flags0 [] v =
            ([fillerUnit flags0], v.dropWhile isSeparator) := by
          simp only [refill, if_pos rfl, get_next_version_component, if_true]
          rw [if_pos h0]
        rw [h1, h2]
        right
        rfl
      · have h1 : refill flagsU [] v = get_next_version_component v flags0 := by
          rw [show refill flagsU [] v = get_next_version_component v flagsU from rfl]
          exact get_next_flags_agnostic v flagsU flags0 rfl rfl h0
        have h2 : refill flags0 [] v = get_next_version_component v flags0 := rfl
        rw [h1, h2]
        rw [if_neg (fun hne => hne (compare_run_self ..))]
        rw [if_neg (by rw [exit_cond_false]; simp)]
        rw [and_dec_one, and_dec_zero, if_neg Bool.false_ne_true]
        split
        · rename_i hx
          simp only [Bool.and_eq_true] at hx
          obtain ⟨hd, he⟩ := hx
          have hnull : (get_next_version_component v flags0).2.headD 0 = 0 :=
            of_decide_eq_true hd
          have hW : (get_next_version_component v flags0).1.drop
              (min (get_next_version_component v flags0).1.length
                (get_next_version_component v flags0).1.length) = [] := by
            rw [← List.isEmpty_iff]
            exact he
          rw [hW]
          exact vc_fuel_upper_null fuel _ hnull
        · exact ih _ _
    · have h1 : refill flagsU u v = (u, v) := by
        simp only [refill]
        rw [if_neg hu]
      have h2 : refill flags0 u v = (u, v) := by
        simp only [refill]
        rw [if_neg hu]
      rw [h1, h2]
      rw [if_neg (fun hne => hne (compare_run_self ..))]
      rw [if_neg (by rw [exit_cond_false]; simp)]
      rw [and_dec_one, and_dec_zero, if_neg Bool.false_ne_true]
      split
      · rename_i hx
        simp only [Bool.and_eq_true] at hx
        obtain ⟨hd, he⟩ := hx
        have hnull : v.headD 0 = 0 := of_decide_eq_true hd
        have hW : u.drop (min u.length u.length) = [] := by
          rw [← List.isEmpty_iff]
          exact he
        rw [hW]
        exact vc_fuel_upper_null fuel _ hnull
      · exact ih _ _

theorem version_compare4_lower (x : List Nat) :
    version_compare4 x x flagsL flags0 = -1 := by
  obtain ⟨r, hr, he⟩ := vc4_eval x x flagsL flags0
  have hr' : vc_fuel flagsL flags0 (fuelFor x x) x x [] [] 1 0 = some r := hr
  rcases vc_fuel_lower_run (fuelFor x x) x [] with h0 | h0
  · rw [hr'] at h0
    exact absurd h0 (by simp)
  · rw [hr'] at h0
    rw [he, Option.some.inj h0]

theorem version_compare4_upper (x : List Nat) :
    version_compare4 x x flagsU flags0 = 1 := by
  obtain ⟨r, hr, he⟩ := vc4_eval x x flagsU flags0
  have hr' : vc_fuel flagsU flags0 (fuelFor x x) x x [] [] 1 0 = some r := hr
  rcases vc_fuel_upper_run (fuelFor x x) x [] with h0 | h0
  · rw [hr'] at h0
    exact absurd h0 (by simp)
  · rw [hr'] at h0
    rw [he, Option.some.inj h0]

/-- C4: bound monotonicity — for every byte string `x`, comparing `x`
carrying the LOWER_BOUND flag against plain `x` yields a result ≤ 0,
and with UPPER_BOUND a result ≥ 0; the inequalities are strict whenever
`x` contains at least one version character (in fact the code makes
them strict for every `x`). -/
theorem bound_monotonicity (x : List Nat) :
    version_compare4 x x flagsL flags0 ≤ 0 ∧
    version_compare4 x x flagsU flags0 ≥ 0 ∧
    ((∃ c ∈ x, is_version_char c = true) →
      version_compare4 x x flagsL flags0 < 0 ∧
        version_compare4 x x flagsU flags0 > 0) := by
  have hL := version_compare4_lower x
  have hU := version_compare4_upper x
  refine ⟨by rw [hL]; decide, by rw [hU]; decide,
    fun _ => ⟨by rw [hL]; decide, by rw [hU]; decide⟩⟩

theorem bound_monotonicity_witness :
    (∃ c ∈ [49], is_version_char c = true) ∧
    (version_compare4 [49] [49] flagsL flags0 < 0 ∧
      version_compare4 [49] [49] flagsU flags0 > 0) :=
  ⟨by decide, (bound_monotonicity [49]).2.2 (by decide)⟩

theorem get_next_units_pos (v : List Nat) (f : VersionFlags) :
    0 < (get_next_version_component v f).1.length :=
  (get_next_units_len v f).1

/-- The infinite stream of comparison units a cursor produces under
repeated calls of the extractor (after the string is exhausted this is
the filler unit forever). -/
def streamFrom (f : VersionFlags) (v : List Nat) (i : Nat) : Unit_t :=
  if h : i < (get_next_version_component v f).1.length then
    (get_next_version_component v f).1[i]
  else
    streamFrom f (get_next_version_component v f).2
      (i - (get_next_version_component v f).1.length)
termination_by i
decreasing_by
  have h1 := get_next_units_pos v f
  omega

/-- The unit stream of a loop state: pending buffered units first, then
the stream of the cursor. -/
def stateStream (f : VersionFlags) (v : List Nat) (u : List Unit_t) (i : Nat) :
    Unit_t :=
  if h : i < u.length then u[i] else streamFrom f v (i - u.length)

theorem stateStream_nil (f : VersionFlags) (v : List Nat) (i : Nat) :
    stateStream f v [] i = streamFrom f v i := by
  simp [stateStream]

theorem streamFrom_step (f : VersionFlags) (v : List Nat) (i : Nat) :
    streamFrom f v i =
      stateStream f (get_next_version_component v f).2
        (get_next_version_component v f).1 i := by
  rw [streamFrom, stateStream]

theorem stateStream_refill (f : VersionFlags) (u : List Unit_t) (v : List Nat)
    (i : Nat) :
    stateStream f v u i = stateStream f (refill f u v).2 (refill f u v).1 i := by
  by_cases h : u = []
  · subst h
    rw [show refill f [] v = get_next_version_component v f from rfl,
      stateStream_nil, streamFrom_step]
  · rw [show refill f u v = (u, v) from by simp only [refill]; rw [if_neg h]]

theorem stateStream_lt (f : VersionFlags) (v : List Nat) (u : List Unit_t)
    (i : Nat) (h : i < u.length) : stateStream f v u i = u.getD i dUnit := by
  simp only [stateStream]
  rw [dif_pos h, List.getD_eq_getElem]

theorem stateStream_ge (f : VersionFlags) (v : List Nat) (u : List Unit_t)
    (i : Nat) (h : ¬ i < u.length) :
    stateStream f v u i = streamFrom f v (i - u.length) := by
  simp only [stateStream]
  rw [dif_neg h]

theorem stateStream_drop (f : VersionFlags) (v : List Nat) (u : List Unit_t)
    (k i : Nat) (hk : k ≤ u.length) :
    stateStream f v (u.drop k) i = stateStream f v u (k + i) := by
  simp only [stateStream, List.length_drop]
  by_cases h : i < u.length - k
  · rw [dif_pos h, dif_pos (by omega)]
    rw [List.getElem_drop]
  · rw [dif_neg h, dif_neg (by omega)]
    congr 1
    omega

theorem streamFrom_null (f : VersionFlags) (v : List Nat) (hv : v.headD 0 = 0) :
    ∀ i, streamFrom f v i = fillerUnit f := by
  intro i
  induction i using Nat.strong_induction_on with
  | _ i ih =>
    rw [streamFrom_step, get_next_null v f hv]
    by_cases h : i < 1
    · rw [stateStream_lt f v [fillerUnit f] i (by exact h)]
      have : i = 0 := by omega
      rw [this]
      rfl
    · rw [stateStream_ge f v [fillerUnit f] i (by exact h)]
      exact ih (i - 1) (by omega)

theorem vc_fuel_char (fuel : Nat) : ∀ (f : VersionFlags) (v1 v2 : List Nat)
    (u1 u2 : List Unit_t) (e1 e2 : Nat) (r : Int),
    vc_fuel f f fuel v1 v2 u1 u2 e1 e2 = some r →
    (r = 0 → ∀ i, stateStream f v1 u1 i = stateStream f v2 u2 i) ∧
    (r ≠ 0 → ∃ i, (∀ j, j < i → stateStream f v1 u1 j = stateStream f v2 u2 j) ∧
      compare_units (stateStream f v1 u1 i) (stateStream f v2 u2 i) = r) := by
  induction fuel with
  | zero => intro f v1 v2 u1 u2 e1 e2 r h; simp [vc_fuel] at h
  | succ fuel ih =>
    intro f v1 v2 u1 u2 e1 e2 r h
    simp only [vc_fuel] at h
    set p1 := refill f u1 v1 with hp1
    set p2 := refill f u2 v2 with hp2
    set shift := min p1.1.length p2.1.length with hshift
    have hs1 : ∀ i, stateStream f v1 u1 i = stateStream f p1.2 p1.1 i := by
      intro i
      rw [hp1]
      exact stateStream_refill f u1 v1 i
    have hs2 : ∀ i, stateStream f v2 u2 i = stateStream f p2.2 p2.1 i := by
      intro i
      rw [hp2]
      exact stateStream_refill f u2 v2 i
    have hl1 : 1 ≤ p1.1.length := by rw [hp1]; exact refill_len_pos f u1 v1
    have hl2 : 1 ≤ p2.1.length := by rw [hp2]; exact refill_len_pos f u2 v2
    have hsle1 : shift ≤ p1.1.length := by rw [hshift]; omega
    have hsle2 : shift ≤ p2.1.length := by rw [hshift]; omega
    split at h
    · rename_i hcond
      have hval := Option.some.inj h
      constructor
      · intro hr0
        rw [hr0] at hval
        exact absurd hval hcond
      · intro _
        obtain ⟨i, hilt, hagree, hcmp⟩ :=
          compare_run_diff shift p1.1 p2.1 r hval (hval ▸ hcond)
        refine ⟨i, ?_, ?_⟩
        · intro j hj
          rw [hs1 j, hs2 j,
            stateStream_lt f p1.2 p1.1 j (by omega),
            stateStream_lt f p2.2 p2.1 j (by omega)]
          exact hagree j hj
        · rw [hs1 i, hs2 i,
            stateStream_lt f p1.2 p1.1 i (by omega),
            stateStream_lt f p2.2 p2.1 i (by omega)]
          exact hcmp
    · rename_i hcond
      have hcr0 : compare_run p1.1 p2.1 shift = 0 := not_not.mp hcond
      have hagree0 : ∀ i, i < shift →
          stateStream f p1.2 p1.1 i = stateStream f p2.2 p2.1 i := by
        intro i hi
        rw [stateStream_lt f p1.2 p1.1 i (by omega),
          stateStream_lt f p2.2 p2.1 i (by omega)]
        exact compare_run_eq_of_zero shift p1.1 p2.1 hcr0 i hi (by omega) (by omega)
      split at h
      · rename_i hexit
        have hr0 := Option.some.inj h
        simp only [Bool.and_eq_true] at hexit
        obtain ⟨⟨⟨hn1, hd1⟩, _⟩, ⟨hn2, hd2⟩, _⟩ := hexit
        have null1 : p1.2.headD 0 = 0 := of_decide_eq_true hn1
        have null2 : p2.2.headD 0 = 0 := of_decide_eq_true hn2
        have hlen1 : p1.1.length ≤ shift := by
          have hnil : p1.1.drop shift = [] := by
            rw [← List.isEmpty_iff]
            exact hd1
          have := congrArg List.length hnil
          simp only [List.length_drop, List.length_nil] at this
          omega
        have hlen2 : p2.1.length ≤ shift := by
          have hnil : p2.1.drop shift = [] := by
            rw [← List.isEmpty_iff]
            exact hd2
          have := congrArg List.length hnil
          simp only [List.length_drop, List.length_nil] at this
          omega
        constructor
        · intro _
          intro i
          rw [hs1 i, hs2 i]
          by_cases hi : i < shift
          · exact hagree0 i hi
          · rw [stateStream_ge f p1.2 p1.1 i (by omega),
              stateStream_ge f p2.2 p2.1 i (by omega),
              streamFrom_null f p1.2 null1, streamFrom_null f p2.2 null2]
        · intro hrne
          exact absurd hr0.symm hrne
      · rename_i hexit
        obtain ⟨ihz, ihnz⟩ := ih f p1.2 p2.2 (p1.1.drop shift) (p2.1.drop shift) _ _ r h
        have hstep1 : ∀ i, stateStream f p1.2 (p1.1.drop shift) i =
            stateStream f p1.2 p1.1 (shift + i) :=
          fun i => stateStream_drop f p1.2 p1.1 shift i hsle1
        have hstep2 : ∀ i, stateStream f p2.2 (p2.1.drop shift) i =
            stateStream f p2.2 p2.1 (shift + i) :=
          fun i => stateStream_drop f p2.2 p2.1 shift i hsle2
        constructor
        · intro hr0
          intro i
          rw [hs1 i, hs2 i]
          by_cases hi : i < shift
          · exact hagree0 i hi
          · have hkey := ihz hr0 (i - shift)
            rw [hstep1, hstep2] at hkey
            have hii : shift + (i - shift) = i := by omega
            rw [hii] at hkey
            exact hkey
        · intro hrne
          obtain ⟨i, hagree, hcmp⟩ := ihnz hrne
          rw [hstep1, hstep2] at hcmp
          refine ⟨shift + i, ?_, ?_⟩
          · intro j hj
            rw [hs1 j, hs2 j]
            by_cases hjlt : j < shift
            · exact hagree0 j hjlt
            · have hkey := hagree (j - shift) (by omega)
              rw [hstep1, hstep2] at hkey
              have hjj : shift + (j - shift) = j := by omega
              rw [hjj] at hkey
              exact hkey
          · rw [hs1 (shift + i), hs2 (shift + i)]
            exact hcmp

/-- Strict lexicographic order on unit streams: a first index of
difference where the left unit compares below the right one. -/
def LexLt (s t : Nat → Unit_t) : Prop :=
  ∃ i, (∀ j, j < i → s j = t j) ∧ compare_units (s i) (t i) = -1

theorem LexLt_trans {s t u : Nat → Unit_t}
    (h1 : LexLt s t) (h2 : LexLt t u) : LexLt s u := by
  obtain ⟨i, ha1, hc1⟩ := h1
  obtain ⟨k, ha2, hc2⟩ := h2
  rcases Nat.lt_trichotomy i k with hik | hik | hik
  · refine ⟨i, fun j hj => (ha1 j hj).trans (ha2 j (by omega)), ?_⟩
    rw [ha2 i hik] at hc1
    exact hc1
  · subst hik
    exact ⟨i, fun j hj => (ha1 j hj).trans (ha2 j hj),
      compare_units_trans_neg hc1 hc2⟩
  · refine ⟨k, fun j hj => (ha1 j (by omega)).trans (ha2 j hj), ?_⟩
    rw [ha1 k hik]
    exact hc2

theorem LexLt_of_eq_lt {s t u : Nat → Unit_t}
    (h1 : ∀ i, s i = t i) (h2 : LexLt t u) : LexLt s u := by
  obtain ⟨i, ha, hc⟩ := h2
  exact ⟨i, fun j hj => (h1 j).trans (ha j hj), by rw [h1 i]; exact hc⟩

theorem LexLt_of_lt_eq {s t u : Nat → Unit_t}
    (h1 : LexLt s t) (h2 : ∀ i, t i = u i) : LexLt s u := by
  obtain ⟨i, ha, hc⟩ := h1
  exact ⟨i, fun j hj => (ha j hj).trans (h2 j), by rw [← h2 i]; exact hc⟩

theorem not_LexLt_of_eq {s t : Nat → Unit_t}
    (h1 : ∀ i, s i = t i) (h2 : LexLt s t) : False := by
  obtain ⟨i, _, hc⟩ := h2
  rw [h1 i, compare_units_self] at hc
  exact absurd hc (by decide)

theorem not_LexLt_both {s t : Nat → Unit_t}
    (h1 : LexLt s t) (h2 : LexLt t s) : False := by
  obtain ⟨i, ha1, hc1⟩ := h1
  obtain ⟨k, ha2, hc2⟩ := h2
  rcases Nat.lt_trichotomy i k with hik | hik | hik
  · rw [ha2 i hik, compare_units_self] at hc1
    exact absurd hc1 (by decide)
  · subst hik
    have := compare_units_neg (s i) (t i)
    omega
  · rw [ha1 k hik, compare_units_self] at hc2
    exact absurd hc2 (by decide)

theorem le_zero_cases {r : Int} (hr : r = -1 ∨ r = 0 ∨ r = 1) (h : r ≤ 0) :
    r = 0 ∨ r = -1 := by
  rcases hr with h1 | h1 | h1
  · right; exact h1
  · left; exact h1
  · rw [h1] at h
    exact absurd h (by decide)

/-- C6: transitivity — with the same flag word on every side of every
call, `version_compare4(x, y) ≤ 0` and `version_compare4(y, z) ≤ 0`
imply `version_compare4(x, z) ≤ 0`. -/
theorem version_compare4_trans (x y z : List Nat) (f : VersionFlags)
    (hxy : version_compare4 x y f f ≤ 0)
    (hyz : version_compare4 y z f f ≤ 0) :
    version_compare4 x z f f ≤ 0 := by
  obtain ⟨rxy, hrxy, hexy⟩ := vc4_eval x y f f
  obtain ⟨ryz, hryz, heyz⟩ := vc4_eval y z f f
  obtain ⟨rxz, hrxz, hexz⟩ := vc4_eval x z f f
  rw [hexy] at hxy
  rw [heyz] at hyz
  rw [hexz]
  have rngxy := vc_fuel_range _ _ _ _ _ _ _ _ _ _ hrxy
  have rngyz := vc_fuel_range _ _ _ _ _ _ _ _ _ _ hryz
  have rngxz := vc_fuel_range _ _ _ _ _ _ _ _ _ _ hrxz
  obtain ⟨cxy0, cxyn⟩ := vc_fuel_char _ f x y [] [] _ _ rxy hrxy
  obtain ⟨cyz0, cyzn⟩ := vc_fuel_char _ f y z [] [] _ _ ryz hryz
  obtain ⟨cxz0, cxzn⟩ := vc_fuel_char _ f x z [] [] _ _ rxz hrxz
  have hxz : (∀ i, stateStream f x [] i = stateStream f z [] i) ∨
      LexLt (stateStream f x []) (stateStream f z []) := by
    rcases le_zero_cases rngxy hxy with h1 | h1
    · rcases le_zero_cases rngyz hyz with h2 | h2
      · left
        intro i
        rw [cxy0 h1 i, cyz0 h2 i]
      · right
        have hd := cyzn (by rw [h2]; decide)
        rw [h2] at hd
        exact LexLt_of_eq_lt (cxy0 h1) hd
    · rcases le_zero_cases rngyz hyz with h2 | h2
      · right
        have hd := cxyn (by rw [h1]; decide)
        rw [h1] at hd
        exact LexLt_of_lt_eq hd (cyz0 h2)
      · right
        have hd1 := cxyn (by rw [h1]; decide)
        rw [h1] at hd1
        have hd2 := cyzn (by rw [h2]; decide)
        rw [h2] at hd2
        exact LexLt_trans hd1 hd2
  by_cases hone : rxz = 1
  · exfalso
    have hd := cxzn (by rw [hone]; decide)
    rw [hone] at hd
    obtain ⟨i, hagree, hcmp⟩ := hd
    have hflip : LexLt (stateStream f z []) (stateStream f x []) := by
      refine ⟨i, fun j hj => (hagree j hj).symm, ?_⟩
      have hne := compare_units_neg (stateStream f z [] i) (stateStream f x [] i)
      rw [hcmp] at hne
      exact hne
    rcases hxz with heq | hlt
    · exact not_LexLt_of_eq (fun i => (heq i).symm) hflip
    · exact not_LexLt_both hlt hflip
  · rcases rngxz with h | h | h
    · exact le_of_eq_of_le h (by decide)
    · exact le_of_eq_of_le h (by decide)
    · exact absurd h hone

theorem version_compare4_trans_witness :
    (version_compare4 [49] [50] flags0 flags0 ≤ 0 ∧
      version_compare4 [50] [51] flags0 flags0 ≤ 0) ∧
    version_compare4 [49] [51] flags0 flags0 ≤ 0 :=
  ⟨⟨by decide, by decide⟩,
    version_compare4_trans [49] [50] [51] flags0 (by decide) (by decide)⟩
